import Mathlib

/-!
Verification development for the TTS_industry_project repository.

Text is modelled as `List Char` (the Python str type).  The regex classes
for word and whitespace characters are modelled by their ASCII parts
(`Char.isAlphanum`, underscore, and the six ASCII whitespace characters);
the repository only manipulates such characters in its fixed tables, so
every claim is stated over this model.
-/

/-- The apostrophe character (U+0027), built numerically. -/
def apos : Char := Char.ofNat 39

/-- The double-quote character (U+0022), built numerically. -/
def quot : Char := Char.ofNat 34

/-- ASCII whitespace, the model of characters split by Python `str.split()`
and matched by the regex class `\s`. -/
def wsCharB (c : Char) : Bool :=
  c = ' ' || c = '\t' || c = '\n' || c = '\r' || c = '\x0b' || c = '\x0c'

/-- Model of Python `str.replace(pat, rep)` for a non-empty `pat`:
left-to-right scan replacing non-overlapping occurrences.  The `fuel`
argument makes the recursion structural; `pyReplace` supplies fuel equal to
the input length, which is always sufficient. -/
def replaceFuel (pat rep : List Char) : Nat → List Char → List Char
  | 0, s => s
  | _ + 1, [] => []
  | n + 1, c :: rest =>
    if !pat.isEmpty && pat.isPrefixOf (c :: rest) then
      rep ++ replaceFuel pat rep n (List.drop (pat.length - 1) rest)
    else
      c :: replaceFuel pat rep n rest

/-- Python `s.replace(pat, rep)` (for the non-empty patterns the repository
uses; for an empty pattern this model is the identity). -/
def pyReplace (pat rep s : List Char) : List Char :=
  replaceFuel pat rep s.length s

/-- Python `needle in haystack` (substring containment). -/
def containsSub (pat : List Char) : List Char → Bool
  | [] => pat.isEmpty
  | c :: rest => pat.isPrefixOf (c :: rest) || containsSub pat rest

/-- Auxiliary scanner for Python `str.split()` (split on whitespace runs,
dropping empty pieces); `acc` holds the current word reversed. -/
def splitWsAux : List Char → List Char → List (List Char)
  | acc, [] => if acc.isEmpty then [] else [acc.reverse]
  | acc, c :: rest =>
    if wsCharB c then
      if acc.isEmpty then splitWsAux [] rest else acc.reverse :: splitWsAux [] rest
    else
      splitWsAux (c :: acc) rest

/-- Python `str.split()` with no argument. -/
def splitWs (s : List Char) : List (List Char) := splitWsAux [] s

/-- Python `' '.join(words)`. -/
def joinWords : List (List Char) → List Char
  | [] => []
  | [w] => w
  | w :: ws => w ++ ' ' :: joinWords ws

/-- Python `str.strip()`: drop leading and trailing whitespace. -/
def pyStrip (s : List Char) : List Char :=
  (((s.dropWhile wsCharB).reverse).dropWhile wsCharB).reverse

/-- The character class kept by the substitution regex of `clean_text`:
word characters, whitespace, the six pause characters, apostrophe, double
quote, parentheses and hyphen; all other characters are deleted. -/
def allowedChar (c : Char) : Bool :=
  c.isAlphanum || c = '_' || wsCharB c || c = '.' || c = ',' || c = '!' ||
  c = '?' || c = ';' || c = ':' || c = apos || c = quot || c = '(' ||
  c = ')' || c = '-'

/-- `TextProcessor.clean_text`: collapse whitespace with
`' '.join(text.split())`, then delete the disallowed characters. -/
def cleanText (t : List Char) : List Char :=
  List.filter allowedChar (joinWords (splitWs t))

/-- The fixed abbreviation table of `TextProcessor.__init__`, in insertion
order. -/
def abbreviationTable : List (List Char × List Char) :=
  [("Mr.".toList, "Mister".toList),
   ("Mrs.".toList, "Missus".toList),
   ("Ms.".toList, "Miss".toList),
   ("Dr.".toList, "Doctor".toList),
   ("Prof.".toList, "Professor".toList),
   ("Sr.".toList, "Senior".toList),
   ("Jr.".toList, "Junior".toList),
   ("Ltd.".toList, "Limited".toList),
   ("Inc.".toList, "Incorporated".toList),
   ("Corp.".toList, "Corporation".toList),
   ("Co.".toList, "Company".toList),
   ("etc.".toList, "etcetera".toList),
   ("vs.".toList, "versus".toList),
   ("e.g.".toList, "for example".toList),
   ("i.e.".toList, "that is".toList),
   ("Ave.".toList, "Avenue".toList),
   ("St.".toList, "Street".toList),
   ("Rd.".toList, "Road".toList),
   ("Blvd.".toList, "Boulevard".toList)]

/-- `TextProcessor.expand_abbreviations`: sequential global replacement over
the abbreviation table. -/
def expandAbbreviations (t : List Char) : List Char :=
  List.foldl (fun acc pr => pyReplace pr.1 pr.2 acc) t abbreviationTable

/-- The fixed contraction table of `TextProcessor.handle_special_cases`, in
insertion order. -/
def contractionTable : List (List Char × List Char) :=
  [(['w', 'o', 'n', apos, 't'], "will not".toList),
   (['c', 'a', 'n', apos, 't'], "cannot".toList),
   (['n', apos, 't'], [' ', 'n', 'o', 't']),
   ([apos, 'r', 'e'], [' ', 'a', 'r', 'e']),
   ([apos, 'v', 'e'], [' ', 'h', 'a', 'v', 'e']),
   ([apos, 'l', 'l'], [' ', 'w', 'i', 'l', 'l']),
   ([apos, 'd'], [' ', 'w', 'o', 'u', 'l', 'd']),
   ([apos, 'm'], [' ', 'a', 'm'])]

/-- `TextProcessor.handle_special_cases`: sequential global replacement over
the contraction table. -/
def handleSpecialCases (t : List Char) : List Char :=
  List.foldl (fun acc pr => pyReplace pr.1 pr.2 acc) t contractionTable

/-- `TextProcessor.process_punctuation`: append a space after each of the six
pause characters, then collapse whitespace with `' '.join(text.split())`. -/
def processPunctuation (t : List Char) : List Char :=
  joinWords (splitWs (pyReplace [':'] [':', ' ']
    (pyReplace [';'] [';', ' ']
      (pyReplace ['?'] ['?', ' ']
        (pyReplace ['!'] ['!', ' ']
          (pyReplace ['.'] ['.', ' ']
            (pyReplace [','] [',', ' '] t)))))))

/-- `TextProcessor.process_text`: guard on empty input, then
`clean_text`, `expand_abbreviations`, `handle_special_cases`,
`process_punctuation`, and a final `strip`. -/
def processText (t : List Char) : List Char :=
  if t.isEmpty then []
  else pyStrip (processPunctuation (handleSpecialCases (expandAbbreviations (cleanText t))))

/-! ## TTSPipeline (src/core/tts_pipeline.py) -/

/-- Python `str.split(sep)` for a non-empty separator, via structural fuel. -/
def splitSepFuel (sep : List Char) : Nat → List Char → List (List Char)
  | 0, s => [s]
  | _ + 1, [] => [[]]
  | n + 1, c :: rest =>
    if !sep.isEmpty && sep.isPrefixOf (c :: rest) then
      [] :: splitSepFuel sep n (List.drop (sep.length - 1) rest)
    else
      match splitSepFuel sep n rest with
      | [] => [[c]]
      | w :: ws => (c :: w) :: ws

/-- Python `s.split(sep)` (non-empty separator). -/
def pySplit (sep s : List Char) : List (List Char) := splitSepFuel sep s.length s

/-- Python `sep.join(pieces)`. -/
def joinSep (sep : List Char) : List (List Char) → List Char
  | [] => []
  | [w] => w
  | w :: ws => w ++ sep ++ joinSep sep ws

/-- The period-space sentence separator used by `preprocess_text`. -/
def dotSpace : List Char := ['.', ' ']

/-- `TTSPipeline.preprocess_text`: guard on empty input, run
`TextProcessor.process_text`, and when the processed text exceeds 500
characters keep only the first five sentences (split at period-space),
appending a final period when missing. -/
def preprocessText (t : List Char) : List Char :=
  if t.isEmpty then []
  else
    let processed := processText t
    if 500 < processed.length then
      let sentences := pySplit dotSpace processed
      let p2 := joinSep dotSpace (sentences.take 5)
      if p2.getLast? = some '.' then p2 else p2 ++ ['.']
    else processed

/-- An engine-reported voice (`pyttsx3` voice object): a display name and an
identifier. -/
structure Voice where
  name : List Char
  ident : Nat
deriving DecidableEq

/-- The lowercased-name test of `TTSPipeline.load_models`: the lowercased
voice name contains the substring male or the substring david. -/
def voiceMatch (v : Voice) : Bool :=
  containsSub ("male".toList) (v.name.map Char.toLower) ||
  containsSub ("david".toList) (v.name.map Char.toLower)

/-- The first-matching-voice loop of `TTSPipeline.load_models`
(`for voice in voices: if ...: male_voice = voice; break`). -/
def findMaleVoice : List Voice → Option Voice
  | [] => none
  | v :: rest => if voiceMatch v then some v else findMaleVoice rest

/-- The voice id `load_models` installs on the engine: the first matching
voice, else the first voice; `none` when the engine reports no voices (the
guard on the voices list). -/
def chooseVoice (voices : List Voice) : Option Nat :=
  if voices.isEmpty then none
  else
    match findMaleVoice voices with
    | some v => some v.ident
    | none => voices.head?.map Voice.ident

/-- Engine-type strings. -/
def pyttsx3S : List Char := "pyttsx3".toList

/-- The gTTS engine-type string. -/
def gttsS : List Char := "gtts".toList

/-- The message of the exception raised when even the fallback fails. -/
def errNoEngine : List Char := "Could not load any TTS engine".toList

/-- `TTSPipeline.load_models`, abstracted over the availability flags
`PYTTSX3_AVAILABLE` / `GTTS_AVAILABLE` and over whether `pyttsx3.init()`
and its configuration succeed (`pyInitOk`).  Returns the engine type in use
on success, or the message of the raised exception.  The body mirrors the
`try` block (requested engine) and the `except` block (gTTS fallback). -/
def loadModels (engineType : List Char) (pyAvail gttsAvail pyInitOk : Bool) :
    Except (List Char) (List Char) :=
  let fallback : Except (List Char) (List Char) :=
    if gttsAvail && !(engineType = gttsS) then Except.ok gttsS
    else Except.error errNoEngine
  if engineType = pyttsx3S && pyAvail then
    (if pyInitOk then Except.ok pyttsx3S else fallback)
  else if engineType = gttsS && gttsAvail then Except.ok gttsS
  else fallback

/-- `TTSPipeline.generate_speech`, abstracted over the engine run:
`engineRun` is `Except.error ()` when synthesis (or directory creation)
raises, and `Except.ok b` when it completes with `b` recording whether
`os.path.exists(output_path)` holds afterwards.  Empty preprocessed text
raises `ValueError`, caught by the same handler. -/
def generateSpeech (engineRun : Except Unit Bool) (text outputPath : List Char) :
    Option (List Char) :=
  let processed := preprocessText text
  if processed.isEmpty then none
  else
    match engineRun with
    | Except.error _ => none
    | Except.ok fileExists => if fileExists then some outputPath else none

/-! ## DocumentProcessor (src/core/document_processor.py) -/

/-- `file_path_or_bytes`: a path string or an uploaded bytes object. -/
inductive FileInput where
  | path (p : List Char)
  | bytes (b : List Nat)
deriving DecidableEq

/-- The filesystem and the third-party readers, abstracted: `pathExists`
models `os.path.exists`, and each reader returns the text the external
library extracts, or `Except.error ()` when the library raises. -/
structure DocEnv where
  pathExists : List Char → Bool
  pdfRead : FileInput → Except Unit (List Char)
  docxRead : FileInput → Except Unit (List Char)
  txtRead : FileInput → Except Unit (List Char)

/-- `DocumentProcessor.extract_text_from_pdf`: on an exception from the
reader, print the error and return the empty string. -/
def extractTextFromPdf (env : DocEnv) (x : FileInput) : List Char :=
  match env.pdfRead x with
  | Except.ok t => t
  | Except.error _ => []

/-- `DocumentProcessor.extract_text_from_docx`. -/
def extractTextFromDocx (env : DocEnv) (x : FileInput) : List Char :=
  match env.docxRead x with
  | Except.ok t => t
  | Except.error _ => []

/-- `DocumentProcessor.extract_text_from_txt`. -/
def extractTextFromTxt (env : DocEnv) (x : FileInput) : List Char :=
  match env.txtRead x with
  | Except.ok t => t
  | Except.error _ => []

/-- `DocumentProcessor.get_file_type`: `filename.split('.')[-1].lower()`. -/
def getFileType (filename : List Char) : List Char :=
  ((pySplit ['.'] filename).getLastD []).map Char.toLower

/-- `self.supported_formats`. -/
def supportedFormats : List (List Char) :=
  ["txt".toList, "pdf".toList, "docx".toList]

/-- Error strings returned by `process_document`. -/
def errFileNotFound : List Char := "Error: File not found".toList

/-- Error for bytes input without a filename. -/
def errFilenameRequired : List Char := "Error: Filename required for bytes input".toList

/-- Error for an unsupported extension (the f-string joins
`supported_formats` with comma-space). -/
def errUnsupported : List Char :=
  "Error: Unsupported file format. Supported: txt, pdf, docx".toList

/-- Error when the extracted text is whitespace-only. -/
def errNoText : List Char := "Error: No text found in document".toList

/-- The final line of `process_document`:
`return text if text.strip() else "Error: No text found in document"`. -/
def finishText (text : List Char) : List Char :=
  if (pyStrip text).isEmpty then errNoText else text

/-- The extension strings. -/
def pdfS : List Char := "pdf".toList

/-- docx extension string. -/
def docxS : List Char := "docx".toList

/-- txt extension string. -/
def txtS : List Char := "txt".toList

/-- `DocumentProcessor.process_document`: guard (existing path, or bytes with
a truthy filename), extension dispatch, unsupported-format error, extraction,
and the empty-text check. -/
def processDocument (env : DocEnv) (x : FileInput) (filename : Option (List Char)) :
    List Char :=
  let ftRes : Except (List Char) (List Char) :=
    match x with
    | FileInput.path p =>
      if env.pathExists p then Except.ok (getFileType p) else Except.error errFileNotFound
    | FileInput.bytes _ =>
      match filename with
      | none => Except.error errFilenameRequired
      | some f => if f.isEmpty then Except.error errFilenameRequired
                  else Except.ok (getFileType f)
  match ftRes with
  | Except.error e => e
  | Except.ok ft =>
    if !supportedFormats.contains ft then errUnsupported
    else
      let text :=
        if ft = pdfS then extractTextFromPdf env x
        else if ft = docxS then extractTextFromDocx env x
        else extractTextFromTxt env x
      finishText text

/-! ## Lemmas: the six punctuation replaces as one expansion pass -/

/-- The six pause characters handled by `process_punctuation`. -/
def puncts : List Char := [',', '.', '!', '?', ';', ':']

/-- Punctuation test used throughout the development. -/
def isPunctB (c : Char) : Bool := puncts.contains c

/-- Append a space after every character of `A` (a punctuation
expansion over a set of characters; `expandSet puncts` describes all six replaces together). -/
def expandSet (A : List Char) : List Char → List Char
  | [] => []
  | c :: rest =>
    if c ∈ A then c :: ' ' :: expandSet A rest else c :: expandSet A rest

theorem expandSet_nil_set (s : List Char) : expandSet [] s = s := by
  induction s with
  | nil => rfl
  | cons c rest ih => simp [expandSet, ih]

theorem char_beq_false_of_ne {c x : Char} (h : c ≠ x) : (c == x) = false := by
  rcases h2 : (c == x) with _ | _
  · rfl
  · exact absurd (eq_of_beq h2) h

theorem replaceFuel_expandSet (c : Char) (A : List Char) (hcA : c ∉ A)
    (hc : c ≠ ' ') :
    ∀ (s : List Char) (n : Nat), (expandSet A s).length ≤ n →
      replaceFuel [c] [c, ' '] n (expandSet A s) = expandSet (A ++ [c]) s := by
  intro s
  induction s with
  | nil =>
    intro n _
    cases n <;> simp [expandSet, replaceFuel]
  | cons x rest ih =>
    intro n hn
    by_cases hxA : x ∈ A
    · have hxc : c ≠ x := fun h => hcA (h ▸ hxA)
      have hEs : expandSet A (x :: rest) = x :: ' ' :: expandSet A rest := by
        simp [expandSet, hxA]
      rw [hEs] at hn ⊢
      have hlen : (expandSet A rest).length + 2 ≤ n := by
        simpa using hn
      rcases n with _ | n
      · omega
      rcases n with _ | n
      · omega
      have h1 : replaceFuel [c] [c, ' '] (n + 1 + 1) (x :: ' ' :: expandSet A rest) =
          x :: replaceFuel [c] [c, ' '] (n + 1) (' ' :: expandSet A rest) := by
        simp [replaceFuel, List.isPrefixOf, char_beq_false_of_ne hxc]
      have h2 : replaceFuel [c] [c, ' '] (n + 1) (' ' :: expandSet A rest) =
          ' ' :: replaceFuel [c] [c, ' '] n (expandSet A rest) := by
        simp [replaceFuel, List.isPrefixOf, char_beq_false_of_ne hc]
      rw [h1, h2, ih n (by omega)]
      have hmem : x ∈ A ++ [c] := List.mem_append.mpr (Or.inl hxA)
      simp [expandSet, hmem]
    · have hEs : expandSet A (x :: rest) = x :: expandSet A rest := by
        simp [expandSet, hxA]
      rw [hEs] at hn ⊢
      have hlen : (expandSet A rest).length + 1 ≤ n := by
        simpa using hn
      rcases n with _ | n
      · omega
      by_cases hxc : x = c
      · subst hxc
        have h1 : replaceFuel [x] [x, ' '] (n + 1) (x :: expandSet A rest) =
            x :: ' ' :: replaceFuel [x] [x, ' '] n (List.drop 0 (expandSet A rest)) := by
          simp [replaceFuel, List.isPrefixOf]
        rw [List.drop_zero] at h1
        rw [h1, ih n (by omega)]
        have hmem : x ∈ A ++ [x] := List.mem_append.mpr (Or.inr (List.mem_singleton.mpr rfl))
        simp [expandSet, hmem]
      · have h1 : replaceFuel [c] [c, ' '] (n + 1) (x :: expandSet A rest) =
            x :: replaceFuel [c] [c, ' '] n (expandSet A rest) := by
          simp [replaceFuel, List.isPrefixOf, char_beq_false_of_ne (Ne.symm hxc)]
        rw [h1, ih n (by omega)]
        have hmem : x ∉ A ++ [c] := by
          intro h
          rcases List.mem_append.mp h with h | h
          · exact hxA h
          · exact hxc (List.mem_singleton.mp h)
        simp [expandSet, hmem]

theorem pyReplace_expandSet (c : Char) (A : List Char) (hcA : c ∉ A)
    (hc : c ≠ ' ') (s : List Char) :
    pyReplace [c] [c, ' '] (expandSet A s) = expandSet (A ++ [c]) s :=
  replaceFuel_expandSet c A hcA hc s (expandSet A s).length (Nat.le_refl _)

theorem pyReplace_expandSet_step (c : Char) (A A' : List Char) (h : A ++ [c] = A')
    (hcA : c ∉ A) (hc : c ≠ ' ') (s : List Char) :
    pyReplace [c] [c, ' '] (expandSet A s) = expandSet A' s :=
  h ▸ pyReplace_expandSet c A hcA hc s

/-- The six sequential replaces of `process_punctuation` amount to one pass
appending a space after each pause character. -/
theorem processPunctuation_eq (t : List Char) :
    processPunctuation t = joinWords (splitWs (expandSet puncts t)) := by
  have h0 : t = expandSet [] t := (expandSet_nil_set t).symm
  unfold processPunctuation
  rw [h0]
  rw [pyReplace_expandSet_step ',' [] [','] rfl (by decide) (by decide)]
  rw [pyReplace_expandSet_step '.' [','] [',', '.'] rfl (by decide) (by decide)]
  rw [pyReplace_expandSet_step '!' [',', '.'] [',', '.', '!'] rfl (by decide) (by decide)]
  rw [pyReplace_expandSet_step '?' [',', '.', '!'] [',', '.', '!', '?'] rfl (by decide)
    (by decide)]
  rw [pyReplace_expandSet_step ';' [',', '.', '!', '?'] [',', '.', '!', '?', ';'] rfl
    (by decide) (by decide)]
  rw [pyReplace_expandSet_step ':' [',', '.', '!', '?', ';'] [',', '.', '!', '?', ';', ':'] rfl
    (by decide) (by decide)]
  rw [← h0]
  rfl

/-! ## Shape predicates for normalized text -/

/-- No two consecutive whitespace characters. -/
def noDoubleWs : List Char → Bool
  | a :: b :: r => (!(wsCharB a && wsCharB b)) && noDoubleWs (b :: r)
  | _ => true

/-- The first character, when present, is not whitespace. -/
def headNotWs : List Char → Bool
  | [] => true
  | c :: _ => !wsCharB c

/-- The last character, when present, is not whitespace. -/
def lastNotWs : List Char → Bool
  | [] => true
  | [c] => !wsCharB c
  | _ :: c :: r => lastNotWs (c :: r)

/-- Every pause character that is not the last character is immediately
followed by a space. -/
def punctFollowedBySpace : List Char → Bool
  | a :: b :: r =>
    (if a ∈ puncts then b == ' ' else true) && punctFollowedBySpace (b :: r)
  | _ => true

/-- Every pause character with at least two characters after it is followed
by a space and then a non-space. -/
def punctSingleSpace : List Char → Bool
  | a :: b :: c :: r =>
    (if a ∈ puncts then b == ' ' && !(c == ' ') else true) &&
      punctSingleSpace (b :: c :: r)
  | _ => true

/-- Every pause character is immediately followed by a whitespace character
(in particular none is last).  This holds after the punctuation expansion. -/
def spacedAfter : List Char → Bool
  | [] => true
  | [c] => !(decide (c ∈ puncts))
  | c :: d :: r => (if c ∈ puncts then wsCharB d else true) && spacedAfter (d :: r)

/-- Within a word, pause characters appear only in final position. -/
def punctOnlyFinal (w : List Char) : Bool :=
  w.dropLast.all (fun c => !(decide (c ∈ puncts)))

/-- Whether the list starts with a whitespace character (false when empty). -/
def fstWsB : List Char → Bool
  | [] => false
  | d :: _ => wsCharB d

/-- Whether the list is empty or starts with a whitespace character. -/
def fstWsOrNilB : List Char → Bool
  | [] => true
  | d :: _ => wsCharB d

/-- Whether the list is empty or starts with a space. -/
def fstSpaceOrNilB : List Char → Bool
  | [] => true
  | d :: _ => d == ' '

theorem noDoubleWs_cons (c : Char) (t : List Char) :
    noDoubleWs (c :: t) = ((!(wsCharB c && fstWsB t)) && noDoubleWs t) := by
  cases t with
  | nil => simp [noDoubleWs, fstWsB]
  | cons d r => rfl

theorem punctFollowedBySpace_cons (a : Char) (t : List Char) :
    punctFollowedBySpace (a :: t) =
      ((if a ∈ puncts then fstSpaceOrNilB t else true) && punctFollowedBySpace t) := by
  cases t with
  | nil => simp [punctFollowedBySpace, fstSpaceOrNilB]
  | cons d r => rfl

theorem lastNotWs_cons_of_ne_nil (a : Char) (t : List Char) (h : t ≠ []) :
    lastNotWs (a :: t) = lastNotWs t := by
  cases t with
  | nil => exact absurd rfl h
  | cons d r => rfl

theorem headNotWs_append_left (x y : List Char) (h : x ≠ []) :
    headNotWs (x ++ y) = headNotWs x := by
  cases x with
  | nil => exact absurd rfl h
  | cons c r => rfl

theorem lastNotWs_append_right (x y : List Char) (h : y ≠ []) :
    lastNotWs (x ++ y) = lastNotWs y := by
  induction x with
  | nil => rfl
  | cons c x ih =>
    have hne : x ++ y ≠ [] := by
      intro hz
      rcases List.append_eq_nil.mp hz with ⟨_, h2⟩
      exact h h2
    rw [List.cons_append, lastNotWs_cons_of_ne_nil c (x ++ y) hne, ih]

theorem headNotWs_reverse (l : List Char) : headNotWs l.reverse = lastNotWs l := by
  induction l with
  | nil => rfl
  | cons c t ih =>
    cases t with
    | nil => rfl
    | cons d r =>
      have hne : (d :: r).reverse ≠ [] := by simp
      rw [List.reverse_cons, headNotWs_append_left _ _ hne, ih,
        lastNotWs_cons_of_ne_nil c (d :: r) (by simp)]

theorem dropWhile_eq_self_of_headNotWs {l : List Char} (h : headNotWs l = true) :
    l.dropWhile wsCharB = l := by
  cases l with
  | nil => rfl
  | cons c r =>
    have hc : wsCharB c = false := by
      simpa [headNotWs] using h
    simp [List.dropWhile_cons, hc]

/-- `strip` is the identity on text with non-whitespace boundary
characters. -/
theorem pyStrip_eq_self {l : List Char} (h1 : headNotWs l = true)
    (h2 : lastNotWs l = true) : pyStrip l = l := by
  unfold pyStrip
  rw [dropWhile_eq_self_of_headNotWs h1]
  rw [dropWhile_eq_self_of_headNotWs (by rw [headNotWs_reverse]; exact h2)]
  exact List.reverse_reverse l

/-! ## Words produced by `splitWs` -/

theorem splitWsAux_words : ∀ (s acc : List Char),
    (∀ c ∈ acc, wsCharB c = false) →
    ∀ w ∈ splitWsAux acc s, w ≠ [] ∧ ∀ c ∈ w, wsCharB c = false := by
  intro s
  induction s with
  | nil =>
    intro acc hacc w hw
    by_cases h : acc = []
    · subst h
      simp [splitWsAux] at hw
    · have : splitWsAux acc [] = [acc.reverse] := by
        have : acc.isEmpty = false := by
          cases acc with
          | nil => exact absurd rfl h
          | cons a r => rfl
        simp [splitWsAux, this]
      rw [this] at hw
      rcases List.mem_singleton.mp hw with rfl
      constructor
      · simpa using h
      · intro c hc
        exact hacc c (List.mem_reverse.mp hc)
  | cons c rest ih =>
    intro acc hacc w hw
    by_cases hws : wsCharB c = true
    · by_cases h : acc = []
      · subst h
        have : splitWsAux [] (c :: rest) = splitWsAux [] rest := by
          simp [splitWsAux, hws]
        rw [this] at hw
        exact ih [] (by intro x hx; cases hx) w hw
      · have hie : acc.isEmpty = false := by
          cases acc with
          | nil => exact absurd rfl h
          | cons a r => rfl
        have : splitWsAux acc (c :: rest) = acc.reverse :: splitWsAux [] rest := by
          simp [splitWsAux, hws, hie]
        rw [this] at hw
        rcases List.mem_cons.mp hw with rfl | hw2
        · constructor
          · simpa using h
          · intro x hx
            exact hacc x (List.mem_reverse.mp hx)
        · exact ih [] (by intro x hx; cases hx) w hw2
    · have hws' : wsCharB c = false := Bool.eq_false_iff.mpr hws
      have : splitWsAux acc (c :: rest) = splitWsAux (c :: acc) rest := by
        simp [splitWsAux, hws']
      rw [this] at hw
      refine ih (c :: acc) ?_ w hw
      intro x hx
      rcases List.mem_cons.mp hx with rfl | hx2
      · exact hws'
      · exact hacc x hx2

theorem splitWs_words (s : List Char) :
    ∀ w ∈ splitWs s, w ≠ [] ∧ ∀ c ∈ w, wsCharB c = false :=
  splitWsAux_words s [] (by intro c hc; cases hc)

theorem splitWsAux_append_word : ∀ (w : List Char),
    (∀ c ∈ w, wsCharB c = false) →
    ∀ (s acc : List Char), splitWsAux acc (w ++ s) = splitWsAux (w.reverse ++ acc) s := by
  intro w
  induction w with
  | nil => intro _ s acc; rfl
  | cons c w ih =>
    intro hw s acc
    have hc : wsCharB c = false := hw c (List.mem_cons_self c w)
    have h1 : splitWsAux acc ((c :: w) ++ s) = splitWsAux (c :: acc) (w ++ s) := by
      simp [splitWsAux, hc]
    rw [h1, ih (fun x hx => hw x (List.mem_cons_of_mem c hx)) s (c :: acc)]
    congr 1
    simp

theorem splitWsAux_space (acc : List Char) (h : acc ≠ []) (s : List Char) :
    splitWsAux acc (' ' :: s) = acc.reverse :: splitWsAux [] s := by
  have hie : acc.isEmpty = false := by
    cases acc with
    | nil => exact absurd rfl h
    | cons a r => rfl
  simp [splitWsAux, hie, wsCharB]

theorem splitWsAux_nil_space (s : List Char) :
    splitWsAux [] (' ' :: s) = splitWsAux [] s := by
  simp [splitWsAux, wsCharB]

theorem splitWsAux_word_nil (w : List Char) (hne : w ≠ [])
    (hw : ∀ c ∈ w, wsCharB c = false) : splitWsAux [] w = [w] := by
  have h1 : splitWsAux [] (w ++ []) = splitWsAux (w.reverse ++ []) [] :=
    splitWsAux_append_word w hw [] []
  rw [List.append_nil, List.append_nil] at h1
  rw [h1]
  have hie : w.reverse.isEmpty = false := by
    rcases hrev : w.reverse with _ | ⟨a, r⟩
    · exact absurd (by simpa using hrev) hne
    · rfl
  simp [splitWsAux, hie]

/-- Splitting the joined words recovers the words. -/
theorem splitWs_joinWords : ∀ (ws : List (List Char)),
    (∀ w ∈ ws, w ≠ [] ∧ ∀ c ∈ w, wsCharB c = false) →
    splitWs (joinWords ws) = ws := by
  intro ws
  induction ws with
  | nil => intro _; rfl
  | cons w ws ih =>
    intro h
    rcases h w (List.mem_cons_self w ws) with ⟨hne, hw⟩
    cases ws with
    | nil =>
      show splitWsAux [] (joinWords [w]) = [w]
      exact splitWsAux_word_nil w hne hw
    | cons x r =>
      have hj : joinWords (w :: x :: r) = w ++ ' ' :: joinWords (x :: r) := rfl
      show splitWsAux [] (joinWords (w :: x :: r)) = w :: x :: r
      rw [hj, splitWsAux_append_word w hw (' ' :: joinWords (x :: r)) [],
        List.append_nil,
        splitWsAux_space w.reverse (by simpa using hne) (joinWords (x :: r)),
        List.reverse_reverse]
      have := ih (fun u hu => h u (List.mem_cons_of_mem w hu))
      rw [show splitWs (joinWords (x :: r)) = splitWsAux [] (joinWords (x :: r)) from rfl]
        at this
      rw [this]

/-! ## Whitespace shape of `joinWords` output -/

theorem fstWsB_false_of_headNotWs {l : List Char} (h : headNotWs l = true) :
    fstWsB l = false := by
  cases l with
  | nil => rfl
  | cons c r =>
    have : wsCharB c = false := by simpa [headNotWs] using h
    simpa [fstWsB] using this

theorem noDoubleWs_append {w r : List Char} (hw : ∀ c ∈ w, wsCharB c = false)
    (hr : noDoubleWs r = true) : noDoubleWs (w ++ r) = true := by
  induction w with
  | nil => simpa using hr
  | cons c w ih =>
    have hc : wsCharB c = false := hw c (List.mem_cons_self c w)
    rw [List.cons_append, noDoubleWs_cons, hc]
    simpa using ih (fun x hx => hw x (List.mem_cons_of_mem c hx))

theorem lastNotWs_of_all {w : List Char} (hw : ∀ c ∈ w, wsCharB c = false) :
    lastNotWs w = true := by
  induction w with
  | nil => rfl
  | cons c w ih =>
    cases w with
    | nil => simpa [lastNotWs] using hw c (List.mem_cons_self c [])
    | cons d r =>
      rw [lastNotWs_cons_of_ne_nil c (d :: r) (by simp)]
      exact ih (fun x hx => hw x (List.mem_cons_of_mem c hx))

theorem joinWords_ne_nil (w : List Char) (ws : List (List Char)) (h : w ≠ []) :
    joinWords (w :: ws) ≠ [] := by
  cases ws with
  | nil => simpa [joinWords] using h
  | cons x r =>
    show w ++ ' ' :: joinWords (x :: r) ≠ []
    simp

/-- The joined words have single spaces and non-whitespace boundaries. -/
theorem joinWords_shape : ∀ (ws : List (List Char)),
    (∀ w ∈ ws, w ≠ [] ∧ ∀ c ∈ w, wsCharB c = false) →
    noDoubleWs (joinWords ws) = true ∧ headNotWs (joinWords ws) = true ∧
      lastNotWs (joinWords ws) = true := by
  intro ws
  induction ws with
  | nil => intro _; exact ⟨rfl, rfl, rfl⟩
  | cons w ws ih =>
    intro h
    rcases h w (List.mem_cons_self w ws) with ⟨hne, hw⟩
    cases ws with
    | nil =>
      refine ⟨?_, ?_, lastNotWs_of_all hw⟩
      · have := noDoubleWs_append hw (show noDoubleWs [] = true from rfl)
        simpa [joinWords] using this
      · cases w with
        | nil => exact absurd rfl hne
        | cons c r => simpa [joinWords, headNotWs] using hw c (List.mem_cons_self c r)
    | cons x r =>
      rcases ih (fun u hu => h u (List.mem_cons_of_mem w hu)) with ⟨nJ, hJ, lJ⟩
      have hJne : joinWords (x :: r) ≠ [] :=
        joinWords_ne_nil x r (h x (by simp)).1
      have hj : joinWords (w :: x :: r) = w ++ ' ' :: joinWords (x :: r) := rfl
      refine ⟨?_, ?_, ?_⟩
      · rw [hj]
        refine noDoubleWs_append hw ?_
        rw [noDoubleWs_cons]
        have : fstWsB (joinWords (x :: r)) = false := fstWsB_false_of_headNotWs hJ
        simp [this, nJ]
      · rw [hj, headNotWs_append_left w _ hne]
        cases w with
        | nil => exact absurd rfl hne
        | cons c rr => simpa [headNotWs] using hw c (List.mem_cons_self c rr)
      · rw [hj, lastNotWs_append_right w _ (by simp),
          lastNotWs_cons_of_ne_nil ' ' _ hJne]
        exact lJ

/-! ## Pause characters sit at word ends -/

theorem spacedAfter_cons_nonpunct {c : Char} (h : c ∉ puncts) (t : List Char) :
    spacedAfter (c :: t) = spacedAfter t := by
  cases t with
  | nil => simp [spacedAfter, h]
  | cons d r => simp [spacedAfter, h]

theorem spacedAfter_tail {c : Char} {t : List Char}
    (h : spacedAfter (c :: t) = true) : spacedAfter t = true := by
  cases t with
  | nil => rfl
  | cons d r =>
    have : ((if c ∈ puncts then wsCharB d else true) && spacedAfter (d :: r)) = true := h
    exact (Bool.and_eq_true_iff.mp this).2

/-- After the punctuation expansion every pause character is followed by a
space. -/
theorem spacedAfter_expandSet : ∀ s, spacedAfter (expandSet puncts s) = true := by
  intro s
  induction s with
  | nil => rfl
  | cons c rest ih =>
    by_cases hc : c ∈ puncts
    · have he : expandSet puncts (c :: rest) = c :: ' ' :: expandSet puncts rest := by
        simp [expandSet, hc]
      rw [he]
      have hsp : (' ' : Char) ∉ puncts := by decide
      have h2 : spacedAfter (' ' :: expandSet puncts rest) = true := by
        rw [spacedAfter_cons_nonpunct hsp]
        exact ih
      show ((if c ∈ puncts then wsCharB ' ' else true) &&
        spacedAfter (' ' :: expandSet puncts rest)) = true
      rw [h2]
      simp [hc, wsCharB]
    · have he : expandSet puncts (c :: rest) = c :: expandSet puncts rest := by
        simp [expandSet, hc]
      rw [he, spacedAfter_cons_nonpunct hc]
      exact ih

theorem dropLast_reverse_eq (l : List Char) : l.reverse.dropLast = l.tail.reverse := by
  cases l with
  | nil => rfl
  | cons a r =>
    rw [List.reverse_cons, List.tail_cons]
    exact List.dropLast_concat

theorem punctOnlyFinal_reverse_of_tail {acc : List Char}
    (h : ∀ c ∈ acc.tail, c ∉ puncts) : punctOnlyFinal acc.reverse = true := by
  unfold punctOnlyFinal
  rw [dropLast_reverse_eq]
  rw [List.all_eq_true]
  intro c hc
  have : c ∈ acc.tail := List.mem_reverse.mp hc
  simpa using h c this

/-- Words split from spaced text have pause characters only in final
position. -/
theorem splitWsAux_punctOnlyFinal : ∀ (s acc : List Char),
    spacedAfter s = true →
    (∀ c ∈ acc.tail, c ∉ puncts) →
    (∀ p, acc.head? = some p → p ∈ puncts → fstWsOrNilB s = true) →
    ∀ w ∈ splitWsAux acc s, punctOnlyFinal w = true := by
  intro s
  induction s with
  | nil =>
    intro acc _ hacc _ w hw
    by_cases h : acc = []
    · subst h
      simp [splitWsAux] at hw
    · have hie : acc.isEmpty = false := by
        cases acc with
        | nil => exact absurd rfl h
        | cons a r => rfl
      have : splitWsAux acc [] = [acc.reverse] := by simp [splitWsAux, hie]
      rw [this] at hw
      rcases List.mem_singleton.mp hw with rfl
      exact punctOnlyFinal_reverse_of_tail hacc
  | cons c rest ih =>
    intro acc hsp hacc hhead w hw
    by_cases hws : wsCharB c = true
    · have hsp' : spacedAfter rest = true := spacedAfter_tail hsp
      by_cases h : acc = []
      · subst h
        have : splitWsAux [] (c :: rest) = splitWsAux [] rest := by
          simp [splitWsAux, hws]
        rw [this] at hw
        exact ih [] hsp' (by intro x hx; cases hx) (by intro p hp; cases hp) w hw
      · have hie : acc.isEmpty = false := by
          cases acc with
          | nil => exact absurd rfl h
          | cons a r => rfl
        have : splitWsAux acc (c :: rest) = acc.reverse :: splitWsAux [] rest := by
          simp [splitWsAux, hws, hie]
        rw [this] at hw
        rcases List.mem_cons.mp hw with rfl | hw2
        · exact punctOnlyFinal_reverse_of_tail hacc
        · exact ih [] hsp' (by intro x hx; cases hx) (by intro p hp; cases hp) w hw2
    · have hws' : wsCharB c = false := Bool.eq_false_iff.mpr hws
      have hstep : splitWsAux acc (c :: rest) = splitWsAux (c :: acc) rest := by
        simp [splitWsAux, hws']
      rw [hstep] at hw
      have hsp' : spacedAfter rest = true := spacedAfter_tail hsp
      refine ih (c :: acc) hsp' ?_ ?_ w hw
      · -- every element of acc is now non-punct
        intro x hx
        rw [List.tail_cons] at hx
        cases acc with
        | nil => cases hx
        | cons a r =>
          rcases List.mem_cons.mp hx with rfl | hx2
          · intro hxp
            have : fstWsOrNilB (c :: rest) = true := hhead x rfl hxp
            have : wsCharB c = true := this
            rw [this] at hws'
            cases hws'
          · exact hacc x hx2
      · intro p hp hpp
        have hpc : c = p := by
          simpa using hp
        subst hpc
        cases rest with
        | nil =>
          have h0 : (!(decide (c ∈ puncts))) = true := hsp
          simp at h0
          exact absurd hpp h0
        | cons d r =>
          have h0 : ((if c ∈ puncts then wsCharB d else true) && spacedAfter (d :: r)) = true :=
            hsp
          have h1 := (Bool.and_eq_true_iff.mp h0).1
          rw [if_pos hpp] at h1
          exact h1

/-! ## Punctuation spacing in `joinWords` output -/

theorem punctOnlyFinal_cons_tail {c : Char} {t : List Char}
    (h : punctOnlyFinal (c :: t) = true) (hne : t ≠ []) :
    c ∉ puncts ∧ punctOnlyFinal t = true := by
  cases t with
  | nil => exact absurd rfl hne
  | cons d r =>
    have hd : (c :: d :: r).dropLast = c :: (d :: r).dropLast := rfl
    unfold punctOnlyFinal at h
    rw [hd, List.all_cons, Bool.and_eq_true_iff] at h
    constructor
    · simpa using h.1
    · exact h.2

theorem punctFollowedBySpace_append {w r : List Char}
    (hw : punctOnlyFinal w = true) (hr : punctFollowedBySpace r = true)
    (hrs : fstSpaceOrNilB r = true) : punctFollowedBySpace (w ++ r) = true := by
  induction w with
  | nil => simpa using hr
  | cons c w ih =>
    cases w with
    | nil =>
      rw [List.cons_append, List.nil_append, punctFollowedBySpace_cons]
      rw [hr]
      by_cases hc : c ∈ puncts
      · simp [hc, hrs]
      · simp [hc]
    | cons d w2 =>
      rcases punctOnlyFinal_cons_tail hw (by simp) with ⟨hc, htail⟩
      rw [List.cons_append, punctFollowedBySpace_cons]
      rw [ih htail]
      simp [hc]

theorem punctFollowedBySpace_cons_nonpunct {c : Char} (h : c ∉ puncts)
    {t : List Char} (ht : punctFollowedBySpace t = true) :
    punctFollowedBySpace (c :: t) = true := by
  rw [punctFollowedBySpace_cons, ht]
  simp [h]

/-- Joined words with end-only pause characters have each pause character
followed by a space or final. -/
theorem punctFollowedBySpace_joinWords : ∀ (ws : List (List Char)),
    (∀ w ∈ ws, punctOnlyFinal w = true) →
    punctFollowedBySpace (joinWords ws) = true := by
  intro ws
  induction ws with
  | nil => intro _; rfl
  | cons w ws ih =>
    intro h
    cases ws with
    | nil =>
      show punctFollowedBySpace (joinWords [w]) = true
      have : joinWords [w] = w ++ [] := by simp [joinWords]
      rw [this]
      exact punctFollowedBySpace_append (h w (by simp)) rfl rfl
    | cons x r =>
      have hj : joinWords (w :: x :: r) = w ++ ' ' :: joinWords (x :: r) := rfl
      rw [hj]
      refine punctFollowedBySpace_append (h w (by simp)) ?_ ?_
      · refine punctFollowedBySpace_cons_nonpunct (by decide) ?_
        exact ih (fun u hu => h u (List.mem_cons_of_mem w hu))
      · rfl

/-- A space after each pause character is single, given no double
whitespace. -/
theorem punctSingleSpace_of_shape : ∀ (l : List Char),
    noDoubleWs l = true → punctFollowedBySpace l = true →
    punctSingleSpace l = true := by
  intro l
  induction l with
  | nil => intro _ _; rfl
  | cons a t ih =>
    intro hnd hpf
    cases t with
    | nil => rfl
    | cons b t2 =>
      cases t2 with
      | nil => rfl
      | cons c r =>
        have hnd1 : (!(wsCharB a && wsCharB b)) = true ∧ noDoubleWs (b :: c :: r) = true := by
          have : ((!(wsCharB a && wsCharB b)) && noDoubleWs (b :: c :: r)) = true := hnd
          exact Bool.and_eq_true_iff.mp this
        have hnd2 : (!(wsCharB b && wsCharB c)) = true := by
          have : ((!(wsCharB b && wsCharB c)) && noDoubleWs (c :: r)) = true := hnd1.2
          exact (Bool.and_eq_true_iff.mp this).1
        have hpf1 : (if a ∈ puncts then b == ' ' else true) = true ∧
            punctFollowedBySpace (b :: c :: r) = true := by
          have : ((if a ∈ puncts then b == ' ' else true) &&
              punctFollowedBySpace (b :: c :: r)) = true := hpf
          exact Bool.and_eq_true_iff.mp this
        show ((if a ∈ puncts then b == ' ' && !(c == ' ') else true) &&
          punctSingleSpace (b :: c :: r)) = true
        rw [ih hnd1.2 hpf1.2, Bool.and_true]
        by_cases ha : a ∈ puncts
        · rw [if_pos ha]
          have hb : (b == ' ') = true := by
            have := hpf1.1
            rwa [if_pos ha] at this
          have hbeq : b = ' ' := eq_of_beq hb
          have hwsb : wsCharB b = true := by
            subst hbeq
            rfl
          have hwsc : wsCharB c = false := by
            rcases h2 : wsCharB c with _ | _
            · rfl
            · rw [hwsb, h2] at hnd2
              cases hnd2
          have hc : (c == ' ') = false := by
            rcases h2 : (c == ' ') with _ | _
            · rfl
            · have : c = ' ' := eq_of_beq h2
              subst this
              cases hwsc
          rw [hb, hc]
          rfl
        · rw [if_neg ha]

/-! ## Shape of `process_punctuation` and `process_text` output -/

theorem processPunctuation_shape (u : List Char) :
    noDoubleWs (processPunctuation u) = true ∧
    headNotWs (processPunctuation u) = true ∧
    lastNotWs (processPunctuation u) = true ∧
    punctFollowedBySpace (processPunctuation u) = true ∧
    punctSingleSpace (processPunctuation u) = true := by
  rw [processPunctuation_eq]
  have hgood := splitWs_words (expandSet puncts u)
  have hshape := joinWords_shape _ hgood
  have hpof : ∀ w ∈ splitWs (expandSet puncts u), punctOnlyFinal w = true :=
    splitWsAux_punctOnlyFinal (expandSet puncts u) [] (spacedAfter_expandSet u)
      (by intro c hc; cases hc) (by intro p hp; cases hp)
  have hpf := punctFollowedBySpace_joinWords _ hpof
  exact ⟨hshape.1, hshape.2.1, hshape.2.2, hpf,
    punctSingleSpace_of_shape _ hshape.1 hpf⟩

theorem processText_shape (t : List Char) :
    noDoubleWs (processText t) = true ∧
    headNotWs (processText t) = true ∧
    lastNotWs (processText t) = true ∧
    punctFollowedBySpace (processText t) = true ∧
    punctSingleSpace (processText t) = true := by
  unfold processText
  by_cases h : t.isEmpty = true
  · rw [if_pos h]
    exact ⟨rfl, rfl, rfl, rfl, rfl⟩
  · rw [if_neg h]
    have hs := processPunctuation_shape
      (handleSpecialCases (expandAbbreviations (cleanText t)))
    rw [pyStrip_eq_self hs.2.1 hs.2.2.1]
    exact hs

/-! ## Character-set lemmas -/

/-- The output character class of `process_text`: word characters, spaces,
and the punctuation the cleaning regex keeps. -/
def allowedOut (c : Char) : Bool :=
  c.isAlphanum || c = '_' || c = ' ' || c = '.' || c = ',' || c = '!' ||
  c = '?' || c = ';' || c = ':' || c = apos || c = quot || c = '(' ||
  c = ')' || c = '-'

theorem allowedOut_of_allowedChar {c : Char} (h1 : allowedChar c = true)
    (h2 : wsCharB c = false) : allowedOut c = true := by
  unfold allowedChar at h1
  unfold allowedOut
  rw [h2] at h1
  simp only [Bool.or_eq_true, decide_eq_true_eq] at h1 ⊢
  tauto

theorem mem_replaceFuel (pat rep : List Char) :
    ∀ (n : Nat) (s : List Char) (c : Char),
      c ∈ replaceFuel pat rep n s → c ∈ s ∨ c ∈ rep := by
  intro n
  induction n with
  | zero => intro s c hc; exact Or.inl hc
  | succ n ih =>
    intro s c hc
    cases s with
    | nil => cases hc
    | cons x rest =>
      by_cases hm : (!pat.isEmpty && pat.isPrefixOf (x :: rest)) = true
      · rw [show replaceFuel pat rep (n + 1) (x :: rest) =
            rep ++ replaceFuel pat rep n (List.drop (pat.length - 1) rest) by
          simp [replaceFuel, hm]] at hc
        rcases List.mem_append.mp hc with hr | hrec
        · exact Or.inr hr
        · rcases ih _ c hrec with hs | hr
          · exact Or.inl (List.mem_cons_of_mem x (List.mem_of_mem_drop hs))
          · exact Or.inr hr
      · rw [show replaceFuel pat rep (n + 1) (x :: rest) =
            x :: replaceFuel pat rep n rest by
          simp only [replaceFuel]
          rw [if_neg (by simpa using hm)]] at hc
        rcases List.mem_cons.mp hc with rfl | hrec
        · exact Or.inl (List.mem_cons_self c rest)
        · rcases ih rest c hrec with hs | hr
          · exact Or.inl (List.mem_cons_of_mem x hs)
          · exact Or.inr hr

theorem mem_pyReplace {pat rep s : List Char} {c : Char}
    (h : c ∈ pyReplace pat rep s) : c ∈ s ∨ c ∈ rep :=
  mem_replaceFuel pat rep s.length s c h

theorem all_foldl_replace (P : Char → Bool) :
    ∀ (tbl : List (List Char × List Char)),
      (∀ pr ∈ tbl, pr.2.all P = true) →
      ∀ s : List Char, s.all P = true →
        (List.foldl (fun acc pr => pyReplace pr.1 pr.2 acc) s tbl).all P = true := by
  intro tbl
  induction tbl with
  | nil => intro _ s hs; exact hs
  | cons pr tbl ih =>
    intro htbl s hs
    rw [List.foldl_cons]
    refine ih (fun q hq => htbl q (List.mem_cons_of_mem pr hq)) _ ?_
    rw [List.all_eq_true]
    intro c hc
    rcases mem_pyReplace hc with h1 | h2
    · exact (List.all_eq_true.mp hs) c h1
    · exact (List.all_eq_true.mp (htbl pr (List.mem_cons_self pr tbl))) c h2

theorem mem_joinWords {c : Char} : ∀ {ws : List (List Char)},
    c ∈ joinWords ws → c = ' ' ∨ ∃ w ∈ ws, c ∈ w := by
  intro ws
  induction ws with
  | nil => intro hc; cases hc
  | cons w ws ih =>
    intro hc
    cases ws with
    | nil =>
      refine Or.inr ⟨w, by simp, ?_⟩
      simpa [joinWords] using hc
    | cons x r =>
      rw [show joinWords (w :: x :: r) = w ++ ' ' :: joinWords (x :: r) from rfl] at hc
      rcases List.mem_append.mp hc with hw | htail
      · exact Or.inr ⟨w, by simp, hw⟩
      · rcases List.mem_cons.mp htail with rfl | hj
        · exact Or.inl rfl
        · rcases ih hj with hsp | ⟨u, hu, hcu⟩
          · exact Or.inl hsp
          · exact Or.inr ⟨u, List.mem_cons_of_mem w hu, hcu⟩

theorem mem_splitWsAux : ∀ (s acc : List Char) (w : List Char) (c : Char),
    w ∈ splitWsAux acc s → c ∈ w → c ∈ s ∨ c ∈ acc := by
  intro s
  induction s with
  | nil =>
    intro acc w c hw hc
    by_cases h : acc = []
    · subst h
      simp [splitWsAux] at hw
    · have hie : acc.isEmpty = false := by
        cases acc with
        | nil => exact absurd rfl h
        | cons a r => rfl
      rw [show splitWsAux acc [] = [acc.reverse] by simp [splitWsAux, hie]] at hw
      rcases List.mem_singleton.mp hw with rfl
      exact Or.inr (List.mem_reverse.mp hc)
  | cons x rest ih =>
    intro acc w c hw hc
    by_cases hws : wsCharB x = true
    · by_cases h : acc = []
      · subst h
        rw [show splitWsAux [] (x :: rest) = splitWsAux [] rest by
          simp [splitWsAux, hws]] at hw
        rcases ih [] w c hw hc with hs | ha
        · exact Or.inl (List.mem_cons_of_mem x hs)
        · cases ha
      · have hie : acc.isEmpty = false := by
          cases acc with
          | nil => exact absurd rfl h
          | cons a r => rfl
        rw [show splitWsAux acc (x :: rest) = acc.reverse :: splitWsAux [] rest by
          simp [splitWsAux, hws, hie]] at hw
        rcases List.mem_cons.mp hw with rfl | hw2
        · exact Or.inr (List.mem_reverse.mp hc)
        · rcases ih [] w c hw2 hc with hs | ha
          · exact Or.inl (List.mem_cons_of_mem x hs)
          · cases ha
    · have hws' : wsCharB x = false := Bool.eq_false_iff.mpr hws
      rw [show splitWsAux acc (x :: rest) = splitWsAux (x :: acc) rest by
        simp [splitWsAux, hws']] at hw
      rcases ih (x :: acc) w c hw hc with hs | ha
      · exact Or.inl (List.mem_cons_of_mem x hs)
      · rcases List.mem_cons.mp ha with rfl | ha2
        · exact Or.inl (List.mem_cons_self c rest)
        · exact Or.inr ha2

theorem mem_expandSet {A : List Char} : ∀ {s : List Char} {c : Char},
    c ∈ expandSet A s → c ∈ s ∨ c = ' ' := by
  intro s
  induction s with
  | nil => intro c hc; cases hc
  | cons x rest ih =>
    intro c hc
    by_cases hx : x ∈ A
    · rw [show expandSet A (x :: rest) = x :: ' ' :: expandSet A rest by
        simp [expandSet, hx]] at hc
      rcases List.mem_cons.mp hc with rfl | hc2
      · exact Or.inl (List.mem_cons_self c rest)
      · rcases List.mem_cons.mp hc2 with rfl | hc3
        · exact Or.inr rfl
        · rcases ih hc3 with hs | hsp
          · exact Or.inl (List.mem_cons_of_mem x hs)
          · exact Or.inr hsp
    · rw [show expandSet A (x :: rest) = x :: expandSet A rest by
        simp [expandSet, hx]] at hc
      rcases List.mem_cons.mp hc with rfl | hc2
      · exact Or.inl (List.mem_cons_self c rest)
      · rcases ih hc2 with hs | hsp
        · exact Or.inl (List.mem_cons_of_mem x hs)
        · exact Or.inr hsp

theorem mem_dropWhile {p : Char → Bool} : ∀ {l : List Char} {c : Char},
    c ∈ l.dropWhile p → c ∈ l := by
  intro l
  induction l with
  | nil => intro c hc; exact hc
  | cons x rest ih =>
    intro c hc
    by_cases hx : p x = true
    · rw [List.dropWhile_cons, if_pos hx] at hc
      exact List.mem_cons_of_mem x (ih hc)
    · rw [List.dropWhile_cons, if_neg (by simpa using hx)] at hc
      exact hc

theorem mem_pyStrip {l : List Char} {c : Char} (h : c ∈ pyStrip l) : c ∈ l := by
  unfold pyStrip at h
  have h1 := List.mem_reverse.mp h
  have h2 := mem_dropWhile h1
  have h3 := List.mem_reverse.mp h2
  exact mem_dropWhile h3

theorem cleanText_allowedOut (t : List Char) : (cleanText t).all allowedOut = true := by
  rw [List.all_eq_true]
  intro c hc
  unfold cleanText at hc
  rcases List.mem_filter.mp hc with ⟨hmem, hal⟩
  rcases mem_joinWords hmem with rfl | ⟨w, hw, hcw⟩
  · decide
  · have hws := (splitWs_words t w hw).2 c hcw
    exact allowedOut_of_allowedChar hal hws

/-- Every character of the `process_text` output is a word character, a
space, or kept punctuation. -/
theorem processText_allowedOut (t : List Char) :
    (processText t).all allowedOut = true := by
  unfold processText
  by_cases h : t.isEmpty = true
  · rw [if_pos h]
    rfl
  · rw [if_neg h]
    have hexp : (expandAbbreviations (cleanText t)).all allowedOut = true := by
      unfold expandAbbreviations
      exact all_foldl_replace allowedOut abbreviationTable (by decide) _
        (cleanText_allowedOut t)
    have hhand :
        (handleSpecialCases (expandAbbreviations (cleanText t))).all allowedOut = true := by
      unfold handleSpecialCases
      exact all_foldl_replace allowedOut contractionTable (by decide) _ hexp
    rw [List.all_eq_true]
    intro c hc
    have hc1 := mem_pyStrip hc
    rw [processPunctuation_eq] at hc1
    rcases mem_joinWords hc1 with rfl | ⟨w, hw, hcw⟩
    · decide
    · rcases mem_splitWsAux _ [] w c hw hcw with hs | ha
      · rcases mem_expandSet hs with hv | rfl
        · exact (List.all_eq_true.mp hhand) c hv
        · decide
      · cases ha

theorem allowedChar_of_allowedOut {c : Char} (h : allowedOut c = true) :
    allowedChar c = true := by
  by_cases hsp : c = ' '
  · subst hsp
    decide
  · unfold allowedOut at h
    unfold allowedChar
    simp only [Bool.or_eq_true, decide_eq_true_eq] at h ⊢
    tauto

/-! ## Identity of the pipeline stages on pattern-free normalized text -/

theorem replaceFuel_id (pat rep : List Char) :
    ∀ (n : Nat) (s : List Char), containsSub pat s = false →
      replaceFuel pat rep n s = s := by
  intro n
  induction n with
  | zero => intro s _; rfl
  | succ n ih =>
    intro s hs
    cases s with
    | nil => rfl
    | cons c rest =>
      have hsplit : pat.isPrefixOf (c :: rest) = false ∧ containsSub pat rest = false := by
        have : (pat.isPrefixOf (c :: rest) || containsSub pat rest) = false := hs
        exact ⟨(Bool.or_eq_false_iff.mp this).1, (Bool.or_eq_false_iff.mp this).2⟩
      have hcond : (!pat.isEmpty && pat.isPrefixOf (c :: rest)) = false := by
        rw [hsplit.1, Bool.and_false]
      show (if !pat.isEmpty && pat.isPrefixOf (c :: rest) then _ else
        c :: replaceFuel pat rep n rest) = c :: rest
      rw [if_neg (by rw [hcond]; exact Bool.false_ne_true)]
      rw [ih rest hsplit.2]

theorem pyReplace_id {pat rep s : List Char} (h : containsSub pat s = false) :
    pyReplace pat rep s = s :=
  replaceFuel_id pat rep s.length s h

theorem foldl_replace_id : ∀ (tbl : List (List Char × List Char)) (s : List Char),
    (∀ pr ∈ tbl, containsSub pr.1 s = false) →
    List.foldl (fun acc pr => pyReplace pr.1 pr.2 acc) s tbl = s := by
  intro tbl
  induction tbl with
  | nil => intro s _; rfl
  | cons pr tbl ih =>
    intro s h
    rw [List.foldl_cons, pyReplace_id (h pr (List.mem_cons_self pr tbl))]
    exact ih s (fun q hq => h q (List.mem_cons_of_mem pr hq))

theorem expandSet_append (A : List Char) :
    ∀ (a b : List Char), expandSet A (a ++ b) = expandSet A a ++ expandSet A b := by
  intro a
  induction a with
  | nil => intro b; rfl
  | cons c a ih =>
    intro b
    by_cases hc : c ∈ A
    · simp [expandSet, hc, ih]
    · simp [expandSet, hc, ih]

theorem expandSet_word {w : List Char} (h : punctOnlyFinal w = true) :
    expandSet puncts w = w ∨ expandSet puncts w = w ++ [' '] := by
  induction w with
  | nil => exact Or.inl rfl
  | cons c w ih =>
    cases w with
    | nil =>
      by_cases hc : c ∈ puncts
      · right
        simp [expandSet, hc]
      · left
        simp [expandSet, hc]
    | cons d w2 =>
      rcases punctOnlyFinal_cons_tail h (by simp) with ⟨hc, htail⟩
      have he : expandSet puncts (c :: d :: w2) = c :: expandSet puncts (d :: w2) := by
        simp [expandSet, hc]
      rcases ih htail with h1 | h1
      · left
        rw [he, h1]
      · right
        rw [he, h1]
        rfl

/-- Re-running the punctuation expansion and whitespace collapse on already
normalized words changes nothing. -/
theorem splitWs_expandSet_joinWords : ∀ (ws : List (List Char)),
    (∀ w ∈ ws, w ≠ [] ∧ (∀ c ∈ w, wsCharB c = false) ∧ punctOnlyFinal w = true) →
    splitWs (expandSet puncts (joinWords ws)) = ws := by
  intro ws
  induction ws with
  | nil => intro _; rfl
  | cons w ws ih =>
    intro h
    rcases h w (List.mem_cons_self w ws) with ⟨hne, hw, hpof⟩
    cases ws with
    | nil =>
      show splitWs (expandSet puncts (joinWords [w])) = [w]
      have hj : joinWords [w] = w := rfl
      rw [hj]
      rcases expandSet_word hpof with h1 | h1
      · rw [h1]
        exact splitWsAux_word_nil w hne hw
      · rw [h1]
        show splitWsAux [] (w ++ [' ']) = [w]
        rw [splitWsAux_append_word w hw [' '] [], List.append_nil,
          splitWsAux_space w.reverse (by simpa using hne) [],
          List.reverse_reverse]
        rfl
    | cons x r =>
      have hj : joinWords (w :: x :: r) = w ++ ' ' :: joinWords (x :: r) := rfl
      have hsp : (' ' : Char) ∉ puncts := by decide
      have hE : expandSet puncts (' ' :: joinWords (x :: r)) =
          ' ' :: expandSet puncts (joinWords (x :: r)) := by
        simp [expandSet, hsp]
      have htail := ih (fun u hu => h u (List.mem_cons_of_mem w hu))
      rcases expandSet_word hpof with h1 | h1
      · rw [hj, expandSet_append, h1, hE]
        show splitWsAux [] (w ++ ' ' :: expandSet puncts (joinWords (x :: r))) = _
        rw [splitWsAux_append_word w hw _ [], List.append_nil,
          splitWsAux_space w.reverse (by simpa using hne) _, List.reverse_reverse]
        rw [show splitWsAux [] (expandSet puncts (joinWords (x :: r))) =
          splitWs (expandSet puncts (joinWords (x :: r))) from rfl, htail]
      · rw [hj, expandSet_append, h1, hE]
        show splitWsAux [] ((w ++ [' ']) ++ ' ' :: expandSet puncts (joinWords (x :: r))) = _
        rw [List.append_assoc, List.singleton_append]
        rw [splitWsAux_append_word w hw _ [], List.append_nil,
          splitWsAux_space w.reverse (by simpa using hne) _, List.reverse_reverse,
          splitWsAux_nil_space]
        rw [show splitWsAux [] (expandSet puncts (joinWords (x :: r))) =
          splitWs (expandSet puncts (joinWords (x :: r))) from rfl, htail]

theorem processText_cons_eq (s : List Char) (h : s.isEmpty = false) :
    processText s =
      pyStrip (processPunctuation (handleSpecialCases (expandAbbreviations (cleanText s)))) := by
  unfold processText
  rw [if_neg (by rw [h]; exact Bool.false_ne_true)]

theorem processText_eq_join (t : List Char) (h : t.isEmpty = false) :
    processText t = joinWords (splitWs (expandSet puncts
      (handleSpecialCases (expandAbbreviations (cleanText t))))) := by
  rw [processText_cons_eq t h]
  have hs := processPunctuation_shape
    (handleSpecialCases (expandAbbreviations (cleanText t)))
  rw [pyStrip_eq_self hs.2.1 hs.2.2.1, processPunctuation_eq]

/-- When the output of `process_text` contains no abbreviation pattern and
no contraction pattern, applying `process_text` again leaves it unchanged. -/
theorem processText_id_of_patternFree (t : List Char)
    (H1 : ∀ pr ∈ abbreviationTable, containsSub pr.1 (processText t) = false)
    (H2 : ∀ pr ∈ contractionTable, containsSub pr.1 (processText t) = false) :
    processText (processText t) = processText t := by
  by_cases ht : t.isEmpty = true
  · have h0 : processText t = [] := by
      unfold processText
      rw [if_pos ht]
    rw [h0]
    rfl
  · have ht' : t.isEmpty = false := Bool.eq_false_iff.mpr ht
    have hoj := processText_eq_join t ht'
    have hgood := splitWs_words (expandSet puncts
      (handleSpecialCases (expandAbbreviations (cleanText t))))
    have hpof : ∀ w ∈ splitWs (expandSet puncts
        (handleSpecialCases (expandAbbreviations (cleanText t)))),
        punctOnlyFinal w = true :=
      splitWsAux_punctOnlyFinal _ [] (spacedAfter_expandSet _)
        (by intro c hc; cases hc) (by intro p hp; cases hp)
    have hsplit : splitWs (processText t) = splitWs (expandSet puncts
        (handleSpecialCases (expandAbbreviations (cleanText t)))) := by
      rw [hoj]
      exact splitWs_joinWords _ hgood
    have hclean : cleanText (processText t) = processText t := by
      unfold cleanText
      rw [hsplit, ← hoj]
      refine List.filter_eq_self.mpr ?_
      intro a ha
      exact allowedChar_of_allowedOut
        ((List.all_eq_true.mp (processText_allowedOut t)) a ha)
    have hexp : expandAbbreviations (processText t) = processText t :=
      foldl_replace_id abbreviationTable _ H1
    have hhand : handleSpecialCases (processText t) = processText t :=
      foldl_replace_id contractionTable _ H2
    have hpunct : processPunctuation (processText t) = processText t := by
      rw [processPunctuation_eq, hoj]
      rw [splitWs_expandSet_joinWords _
        (fun w hw => ⟨(hgood w hw).1, (hgood w hw).2, hpof w hw⟩)]
    have hstrip : pyStrip (processText t) = processText t := by
      have hs := processText_shape t
      exact pyStrip_eq_self hs.2.1 hs.2.2.1
    by_cases ho : (processText t).isEmpty = true
    · have h0 : processText t = [] := by
        cases hpt : processText t with
        | nil => rfl
        | cons a r => rw [hpt] at ho; cases ho
      rw [h0]
      rfl
    · rw [processText_cons_eq (processText t) (Bool.eq_false_iff.mpr ho),
        hclean, hexp, hhand, hpunct, hstrip]

/-! ## Voice-selection lemmas -/

theorem findMaleVoice_eq_none : ∀ (vs : List Voice),
    (∀ v ∈ vs, voiceMatch v = false) → findMaleVoice vs = none := by
  intro vs
  induction vs with
  | nil => intro _; rfl
  | cons v rest ih =>
    intro h
    unfold findMaleVoice
    rw [if_neg (by rw [h v (List.mem_cons_self v rest)]; exact Bool.false_ne_true)]
    exact ih (fun u hu => h u (List.mem_cons_of_mem v hu))

theorem findMaleVoice_first : ∀ (l1 : List Voice) (v : Voice) (l2 : List Voice),
    (∀ u ∈ l1, voiceMatch u = false) → voiceMatch v = true →
    findMaleVoice (l1 ++ v :: l2) = some v := by
  intro l1
  induction l1 with
  | nil =>
    intro v l2 _ hv
    rw [List.nil_append]
    unfold findMaleVoice
    rw [if_pos hv]
  | cons u l1 ih =>
    intro v l2 hl hv
    rw [List.cons_append]
    unfold findMaleVoice
    rw [if_neg (by rw [hl u (List.mem_cons_self u l1)]; exact Bool.false_ne_true)]
    exact ih v l2 (fun x hx => hl x (List.mem_cons_of_mem u hx)) hv

/-! ## Claim theorems -/

/-- C1: `process_text` applies exactly `clean_text`, `expand_abbreviations`
(the fixed 19-entry table), `handle_special_cases` (the fixed 8-entry
contraction table) and `process_punctuation`, in that order, followed by a
final `strip`; its result equals that composition (also at the guarded empty
input, where the composition also yields the empty string). -/
theorem claim_C1_processText_composition :
    (∀ t : List Char, processText t =
      pyStrip (processPunctuation (handleSpecialCases
        (expandAbbreviations (cleanText t))))) ∧
    abbreviationTable.length = 19 ∧ contractionTable.length = 8 := by
  refine ⟨?_, rfl, rfl⟩
  intro t
  by_cases h : t.isEmpty = true
  · have ht : t = [] := by
      cases t with
      | nil => rfl
      | cons a r => cases h
    subst ht
    decide
  · exact processText_cons_eq t (Bool.eq_false_iff.mpr h)

/-- C6: the output of `process_text` has no two consecutive whitespace
characters, no leading or trailing whitespace, and every pause character
(comma, period, exclamation mark, question mark, semicolon, colon) not at
the end is immediately followed by a single space, the single-ness restated
explicitly by `punctSingleSpace`. -/
theorem claim_C6_whitespace_normalization (t : List Char) :
    noDoubleWs (processText t) = true ∧
    headNotWs (processText t) = true ∧
    lastNotWs (processText t) = true ∧
    punctFollowedBySpace (processText t) = true ∧
    punctSingleSpace (processText t) = true :=
  processText_shape t

/-- C9: every character of the `process_text` output is a word character
(letter, digit, underscore), a space, or one of the kept punctuation marks
(the six pause characters, apostrophe, double quote, parentheses, hyphen);
every other input character has been removed. -/
theorem claim_C9_output_charset (t : List Char) :
    (processText t).all allowedOut = true :=
  processText_allowedOut t

/-- C10 counterexample: `process_text` is not idempotent.  On `"Ave.tc."`
the first pass expands `Ave.` producing `"Avenuetc."`, in which the second
pass finds and expands the abbreviation `etc.`. -/
theorem claim_C10_counterexample :
    processText (processText ("Ave.tc.".toList)) ≠ processText ("Ave.tc.".toList) := by
  decide

/-- C10 (amended): `process_text` is idempotent on every input whose output
contains no abbreviation pattern and no contraction pattern as a
substring. -/
theorem claim_C10_idempotent_on_patternFree (t : List Char)
    (H : ∀ pr ∈ abbreviationTable ++ contractionTable,
      containsSub pr.1 (processText t) = false) :
    processText (processText t) = processText t :=
  processText_id_of_patternFree t
    (fun pr hpr => H pr (List.mem_append.mpr (Or.inl hpr)))
    (fun pr hpr => H pr (List.mem_append.mpr (Or.inr hpr)))

theorem claim_C10_witness :
    (∀ pr ∈ abbreviationTable ++ contractionTable,
      containsSub pr.1 (processText ("hello world.".toList)) = false) ∧
    processText (processText ("hello world.".toList)) =
      processText ("hello world.".toList) :=
  ⟨by decide, claim_C10_idempotent_on_patternFree ("hello world.".toList) (by decide)⟩

/-- C3: for a non-empty engine voice list, `load_models` installs the id of
the first voice whose lowercased name contains `male` or `david`, and the id
of the first voice when none matches. -/
theorem claim_C3_voice_selection (voices : List Voice) (h : voices ≠ []) :
    ((∀ v ∈ voices, voiceMatch v = false) →
      chooseVoice voices = voices.head?.map Voice.ident) ∧
    (∀ (l1 : List Voice) (v : Voice) (l2 : List Voice),
      voices = l1 ++ v :: l2 → (∀ u ∈ l1, voiceMatch u = false) →
      voiceMatch v = true → chooseVoice voices = some v.ident) := by
  have hie : voices.isEmpty = false := by
    cases voices with
    | nil => exact absurd rfl h
    | cons a r => rfl
  constructor
  · intro hall
    unfold chooseVoice
    rw [if_neg (by rw [hie]; exact Bool.false_ne_true)]
    rw [findMaleVoice_eq_none voices hall]
  · intro l1 v l2 hveq hl1 hv
    subst hveq
    unfold chooseVoice
    rw [if_neg (by rw [hie]; exact Bool.false_ne_true)]
    rw [findMaleVoice_first l1 v l2 hl1 hv]

theorem claim_C3_witness :
    chooseVoice [⟨"Microsoft Zira Desktop".toList, 0⟩,
      ⟨"Microsoft David Desktop".toList, 1⟩] = some 1 :=
  (claim_C3_voice_selection
      [⟨"Microsoft Zira Desktop".toList, 0⟩, ⟨"Microsoft David Desktop".toList, 1⟩]
      (by decide)).2
    [⟨"Microsoft Zira Desktop".toList, 0⟩] ⟨"Microsoft David Desktop".toList, 1⟩ []
    rfl (by decide) (by decide)

/-- C8: when the processed text exceeds 500 characters, `preprocess_text`
returns the first five period-space-separated sentences rejoined with
period-space, with a period appended when the result does not already end
in one; the empty input yields the empty string (non-string input is
outside this typed model). -/
theorem claim_C8_preprocess_truncation :
    preprocessText [] = [] ∧
    ∀ t : List Char, 500 < (processText t).length →
      preprocessText t =
        (let p2 := joinSep dotSpace ((pySplit dotSpace (processText t)).take 5);
         if p2.getLast? = some '.' then p2 else p2 ++ ['.']) := by
  constructor
  · rfl
  · intro t h
    have ht' : t.isEmpty = false := by
      cases t with
      | nil =>
        exfalso
        have h0 : processText ([] : List Char) = [] := rfl
        rw [h0] at h
        simp at h
      | cons a r => rfl
    unfold preprocessText
    rw [if_neg (by rw [ht']; exact Bool.false_ne_true)]
    show (if 500 < (processText t).length then
        (let p2 := joinSep dotSpace (List.take 5 (pySplit dotSpace (processText t)));
         if p2.getLast? = some '.' then p2 else p2 ++ ['.'])
      else processText t) =
      (let p2 := joinSep dotSpace (List.take 5 (pySplit dotSpace (processText t)));
       if p2.getLast? = some '.' then p2 else p2 ++ ['.'])
    rw [if_pos h]

set_option maxRecDepth 8000 in
theorem claim_C8_witness :
    500 < (processText (List.replicate 501 'a')).length ∧
    preprocessText (List.replicate 501 'a') =
      (let p2 := joinSep dotSpace
        ((pySplit dotSpace (processText (List.replicate 501 'a'))).take 5);
       if p2.getLast? = some '.' then p2 else p2 ++ ['.']) :=
  ⟨by decide, claim_C8_preprocess_truncation.2 (List.replicate 501 'a') (by decide)⟩

/-- C5: `generate_speech` returns the output path exactly when the
preprocessed text is non-empty, the engine run does not raise, and the
output file exists afterwards; it returns `None` exactly when the
preprocessed text is empty, the engine raises, or the file was not
created. -/
theorem claim_C5_generate_speech (e : Except Unit Bool) (t p : List Char) :
    (generateSpeech e t p = some p ↔
      (preprocessText t ≠ [] ∧ e = Except.ok true)) ∧
    (generateSpeech e t p = none ↔
      (preprocessText t = [] ∨ e = Except.error () ∨ e = Except.ok false)) := by
  have hg : generateSpeech e t p =
      (if (preprocessText t).isEmpty then none
       else match e with
       | Except.error _ => none
       | Except.ok b => if b then some p else none) := rfl
  rw [hg]
  by_cases h : (preprocessText t).isEmpty = true
  · have h0 : preprocessText t = [] := by
      cases hh : preprocessText t with
      | nil => rfl
      | cons a r => rw [hh] at h; cases h
    rw [if_pos h]
    simp [h0]
  · have h0 : preprocessText t ≠ [] := by
      intro hz
      rw [hz] at h
      exact h rfl
    rw [if_neg h]
    cases e with
    | error u =>
      cases u
      simp [h0]
    | ok b =>
      cases b with
      | false => simp [h0]
      | true => simp [h0]

/-! ## Dispatch shape of `process_document` -/

theorem processDocument_path (env : DocEnv) (p : List Char) (fn : Option (List Char))
    (hex : env.pathExists p = true) :
    processDocument env (FileInput.path p) fn =
      (if !supportedFormats.contains (getFileType p) then errUnsupported
       else finishText
        (if getFileType p = pdfS then extractTextFromPdf env (FileInput.path p)
         else if getFileType p = docxS then extractTextFromDocx env (FileInput.path p)
         else extractTextFromTxt env (FileInput.path p))) := by
  unfold processDocument
  simp only [hex, if_true]

theorem processDocument_bytes (env : DocEnv) (b : List Nat) (f : List Char)
    (hf : f.isEmpty = false) :
    processDocument env (FileInput.bytes b) (some f) =
      (if !supportedFormats.contains (getFileType f) then errUnsupported
       else finishText
        (if getFileType f = pdfS then extractTextFromPdf env (FileInput.bytes b)
         else if getFileType f = docxS then extractTextFromDocx env (FileInput.bytes b)
         else extractTextFromTxt env (FileInput.bytes b))) := by
  unfold processDocument
  simp only [hf, Bool.false_eq_true, if_false]

theorem processDocument_path_notFound (env : DocEnv) (p : List Char)
    (fn : Option (List Char)) (hex : env.pathExists p = false) :
    processDocument env (FileInput.path p) fn = errFileNotFound := by
  unfold processDocument
  simp only [hex, Bool.false_eq_true, if_false]

theorem processDocument_bytes_noFilename (env : DocEnv) (b : List Nat) :
    processDocument env (FileInput.bytes b) none = errFilenameRequired := rfl

theorem dispatch_pdf_of_ext (env : DocEnv) (x : FileInput) (ft : List Char)
    (hft : ft = pdfS) :
    (if !supportedFormats.contains ft then errUnsupported
     else finishText
      (if ft = pdfS then extractTextFromPdf env x
       else if ft = docxS then extractTextFromDocx env x
       else extractTextFromTxt env x)) = finishText (extractTextFromPdf env x) := by
  subst hft
  have h1 : (!supportedFormats.contains pdfS) = false := by decide
  rw [if_neg (by rw [h1]; exact Bool.false_ne_true), if_pos rfl]

theorem dispatch_docx_of_ext (env : DocEnv) (x : FileInput) (ft : List Char)
    (hft : ft = docxS) :
    (if !supportedFormats.contains ft then errUnsupported
     else finishText
      (if ft = pdfS then extractTextFromPdf env x
       else if ft = docxS then extractTextFromDocx env x
       else extractTextFromTxt env x)) = finishText (extractTextFromDocx env x) := by
  subst hft
  have h1 : (!supportedFormats.contains docxS) = false := by decide
  rw [if_neg (by rw [h1]; exact Bool.false_ne_true), if_neg (by decide), if_pos rfl]

theorem dispatch_txt_of_ext (env : DocEnv) (x : FileInput) (ft : List Char)
    (hft : ft = txtS) :
    (if !supportedFormats.contains ft then errUnsupported
     else finishText
      (if ft = pdfS then extractTextFromPdf env x
       else if ft = docxS then extractTextFromDocx env x
       else extractTextFromTxt env x)) = finishText (extractTextFromTxt env x) := by
  subst hft
  have h1 : (!supportedFormats.contains txtS) = false := by decide
  rw [if_neg (by rw [h1]; exact Bool.false_ne_true), if_neg (by decide), if_neg (by decide)]

theorem dispatch_unsupported_of_ext (env : DocEnv) (x : FileInput) (ft : List Char)
    (hft : supportedFormats.contains ft = false) :
    (if !supportedFormats.contains ft then errUnsupported
     else finishText
      (if ft = pdfS then extractTextFromPdf env x
       else if ft = docxS then extractTextFromDocx env x
       else extractTextFromTxt env x)) = errUnsupported := by
  rw [if_pos (by rw [hft]; rfl)]

/-- C2 counterexample: for a path whose file does not exist, the extension
check never happens: with extension `exe` (not a supported format) the
result is the file-not-found error, not the unsupported-format message the
claim asserts for every input with an unsupported extension. -/
theorem claim_C2_counterexample :
    supportedFormats.contains (getFileType ("doc.exe".toList)) = false ∧
    processDocument
      ⟨fun _ => false, fun _ => Except.ok [], fun _ => Except.ok [],
        fun _ => Except.ok []⟩
      (FileInput.path ("doc.exe".toList)) none = errFileNotFound ∧
    errFileNotFound ≠ errUnsupported := by
  refine ⟨by decide, ?_, by decide⟩
  exact processDocument_path_notFound _ _ none rfl

/-- C2 (amended): once past the guards (an existing file path, or bytes
input with a non-empty filename), `process_document` dispatches on the
lowercased final dot-separated component: `pdf` to `extract_text_from_pdf`,
`docx` to `extract_text_from_docx`, `txt` to `extract_text_from_txt`, and
any other extension yields the unsupported-format message for every
environment, so no extractor is consulted; a non-existing path yields the
file-not-found error and bytes without a filename the filename-required
error before any dispatch. -/
theorem claim_C2_extension_dispatch :
    (∀ (env : DocEnv) (p : List Char) (fn : Option (List Char)),
      env.pathExists p = true →
      ((getFileType p = pdfS →
         processDocument env (FileInput.path p) fn =
           finishText (extractTextFromPdf env (FileInput.path p))) ∧
       (getFileType p = docxS →
         processDocument env (FileInput.path p) fn =
           finishText (extractTextFromDocx env (FileInput.path p))) ∧
       (getFileType p = txtS →
         processDocument env (FileInput.path p) fn =
           finishText (extractTextFromTxt env (FileInput.path p))) ∧
       (supportedFormats.contains (getFileType p) = false →
         processDocument env (FileInput.path p) fn = errUnsupported))) ∧
    (∀ (env : DocEnv) (b : List Nat) (f : List Char),
      f.isEmpty = false →
      ((getFileType f = pdfS →
         processDocument env (FileInput.bytes b) (some f) =
           finishText (extractTextFromPdf env (FileInput.bytes b))) ∧
       (getFileType f = docxS →
         processDocument env (FileInput.bytes b) (some f) =
           finishText (extractTextFromDocx env (FileInput.bytes b))) ∧
       (getFileType f = txtS →
         processDocument env (FileInput.bytes b) (some f) =
           finishText (extractTextFromTxt env (FileInput.bytes b))) ∧
       (supportedFormats.contains (getFileType f) = false →
         processDocument env (FileInput.bytes b) (some f) = errUnsupported))) := by
  constructor
  · intro env p fn hex
    rw [processDocument_path env p fn hex]
    exact ⟨dispatch_pdf_of_ext env _ _, dispatch_docx_of_ext env _ _,
      dispatch_txt_of_ext env _ _, dispatch_unsupported_of_ext env _ _⟩
  · intro env b f hf
    rw [processDocument_bytes env b f hf]
    exact ⟨dispatch_pdf_of_ext env _ _, dispatch_docx_of_ext env _ _,
      dispatch_txt_of_ext env _ _, dispatch_unsupported_of_ext env _ _⟩

theorem claim_C2_witness :
    DocEnv.pathExists
        ⟨fun _ => true, fun _ => Except.ok ("hello".toList),
          fun _ => Except.ok [], fun _ => Except.ok []⟩ ("a.pdf".toList) = true ∧
    getFileType ("a.pdf".toList) = pdfS ∧
    processDocument
        ⟨fun _ => true, fun _ => Except.ok ("hello".toList),
          fun _ => Except.ok [], fun _ => Except.ok []⟩
        (FileInput.path ("a.pdf".toList)) none =
      finishText (extractTextFromPdf
        ⟨fun _ => true, fun _ => Except.ok ("hello".toList),
          fun _ => Except.ok [], fun _ => Except.ok []⟩
        (FileInput.path ("a.pdf".toList))) :=
  ⟨rfl, by decide,
    (claim_C2_extension_dispatch.1 _ ("a.pdf".toList) none rfl).1 (by decide)⟩

/-- C7: when the underlying reader raises, each extractor prints the error
and returns the empty string, and `process_document` then returns the
no-text error; a non-existing path yields the file-not-found error and
bytes input without a filename the filename-required error. -/
theorem claim_C7_extraction_error_handling :
    (∀ (env : DocEnv) (x : FileInput),
       env.pdfRead x = Except.error () → extractTextFromPdf env x = []) ∧
    (∀ (env : DocEnv) (x : FileInput),
       env.docxRead x = Except.error () → extractTextFromDocx env x = []) ∧
    (∀ (env : DocEnv) (x : FileInput),
       env.txtRead x = Except.error () → extractTextFromTxt env x = []) ∧
    (∀ (env : DocEnv) (p : List Char) (fn : Option (List Char)),
       env.pathExists p = true → getFileType p = pdfS →
       env.pdfRead (FileInput.path p) = Except.error () →
       processDocument env (FileInput.path p) fn = errNoText) ∧
    (∀ (env : DocEnv) (p : List Char) (fn : Option (List Char)),
       env.pathExists p = true → getFileType p = docxS →
       env.docxRead (FileInput.path p) = Except.error () →
       processDocument env (FileInput.path p) fn = errNoText) ∧
    (∀ (env : DocEnv) (p : List Char) (fn : Option (List Char)),
       env.pathExists p = true → getFileType p = txtS →
       env.txtRead (FileInput.path p) = Except.error () →
       processDocument env (FileInput.path p) fn = errNoText) ∧
    (∀ (env : DocEnv) (p : List Char) (fn : Option (List Char)),
       env.pathExists p = false →
       processDocument env (FileInput.path p) fn = errFileNotFound) ∧
    (∀ (env : DocEnv) (b : List Nat),
       processDocument env (FileInput.bytes b) none = errFilenameRequired) := by
  have hpdf : ∀ (env : DocEnv) (x : FileInput),
      env.pdfRead x = Except.error () → extractTextFromPdf env x = [] := by
    intro env x h
    unfold extractTextFromPdf
    rw [h]
  have hdocx : ∀ (env : DocEnv) (x : FileInput),
      env.docxRead x = Except.error () → extractTextFromDocx env x = [] := by
    intro env x h
    unfold extractTextFromDocx
    rw [h]
  have htxt : ∀ (env : DocEnv) (x : FileInput),
      env.txtRead x = Except.error () → extractTextFromTxt env x = [] := by
    intro env x h
    unfold extractTextFromTxt
    rw [h]
  refine ⟨hpdf, hdocx, htxt, ?_, ?_, ?_, ?_, ?_⟩
  · intro env p fn hex hft hread
    rw [processDocument_path env p fn hex, dispatch_pdf_of_ext env _ _ hft,
      hpdf env _ hread]
    rfl
  · intro env p fn hex hft hread
    rw [processDocument_path env p fn hex, dispatch_docx_of_ext env _ _ hft,
      hdocx env _ hread]
    rfl
  · intro env p fn hex hft hread
    rw [processDocument_path env p fn hex, dispatch_txt_of_ext env _ _ hft,
      htxt env _ hread]
    rfl
  · intro env p fn hex
    exact processDocument_path_notFound env p fn hex
  · intro env b
    exact processDocument_bytes_noFilename env b

theorem claim_C7_witness :
    extractTextFromPdf
        ⟨fun _ => true, fun _ => Except.error (), fun _ => Except.error (),
          fun _ => Except.error ()⟩ (FileInput.path ("a.pdf".toList)) = [] ∧
    processDocument
        ⟨fun _ => true, fun _ => Except.error (), fun _ => Except.error (),
          fun _ => Except.error ()⟩ (FileInput.path ("a.pdf".toList)) none = errNoText ∧
    processDocument
        ⟨fun _ => false, fun _ => Except.error (), fun _ => Except.error (),
          fun _ => Except.error ()⟩ (FileInput.path ("a.pdf".toList)) none =
      errFileNotFound ∧
    processDocument
        ⟨fun _ => true, fun _ => Except.error (), fun _ => Except.error (),
          fun _ => Except.error ()⟩ (FileInput.bytes [1, 2]) none = errFilenameRequired :=
  ⟨claim_C7_extraction_error_handling.1 _ _ rfl,
   claim_C7_extraction_error_handling.2.2.2.1 _ ("a.pdf".toList) none rfl (by decide) rfl,
   claim_C7_extraction_error_handling.2.2.2.2.2.2.1 _ ("a.pdf".toList) none rfl,
   claim_C7_extraction_error_handling.2.2.2.2.2.2.2 _ [1, 2]⟩

/-- C4 counterexample: `load_models` contains fallback logic.  Requesting
`pyttsx3` while it is unavailable and gTTS is available does not merely
print an error and return: the pipeline retries with the different engine
gTTS and succeeds. -/
theorem claim_C4_counterexample :
    loadModels pyttsx3S false true true = Except.ok gttsS ∧ gttsS ≠ pyttsx3S := by
  constructor
  · rfl
  · decide

/-- C4 (amended): the operations report failures by printing an error and
returning an error value, and the dashboard memoizes the constructed
pipeline with `st.cache_resource`, but `load_models` does contain fallback
logic: whenever the requested engine cannot be loaded and gTTS is available
(and was not the requested engine), it retries with gTTS, and it raises only
when no engine can be loaded, as this total characterization shows. -/
theorem claim_C4_loadModels_characterization (engineType : List Char) (p g i : Bool) :
    loadModels engineType p g i =
      (if engineType = pyttsx3S ∧ p = true ∧ i = true then Except.ok pyttsx3S
       else if engineType = gttsS ∧ g = true then Except.ok gttsS
       else if g = true ∧ engineType ≠ gttsS then Except.ok gttsS
       else Except.error errNoEngine) := by
  by_cases hpy : engineType = pyttsx3S
  · subst hpy
    cases p <;> cases g <;> cases i <;> rfl
  · by_cases hg : engineType = gttsS
    · subst hg
      cases p <;> cases g <;> cases i <;> rfl
    · cases g <;> simp [loadModels, hpy, hg]
